import Mathlib

/-!
Verification of the absnfs compatibility-report tooling.

This file gives a shallow embedding, in Lean 4, of the three Python scripts in
`.github/scripts/`:

* `update_compatibility_matrix.py` (report parsing, status normalization,
  matrix rendering and in-place splicing),
* `validate_client_reports.py` (schema validation),
* `check_progress_consistency.py` (name normalization, fuzzy matching and
  report/queue reconciliation),

and proves or refutes the frozen specification claims about them.

Modelling conventions:

* Python strings are modelled as `String`/`List Char`.  Python's substring
  test `pat in s` is `hasSub`; `str.replace` is `pyReplace`.
* The regular expressions in the scripts are all of the "literal pieces glued
  by lazy gaps" form; each one is embedded as an explicit scanner that
  follows the leftmost-match / lazy-extent semantics of `re.search`.
* `str.lower()` is modelled by `Char.toLower`, the ASCII fragment of Python's
  lower-casing (the client names involved are ASCII); `\s` is modelled by the
  six ASCII whitespace characters Python's `\s` always includes.
* File I/O, `glob` discovery and `os.path.basename` are thin plumbing; the
  embeddings take the (filename, file body) pairs as inputs.  Report bodies
  are the post-frontmatter content that `frontmatter.load` yields.
-/

/-! ## Generic Python-string helpers -/

/-- Python's substring test `pat in s` (`pat` is the first argument). -/
def hasSub (pat : List Char) : List Char → Bool
  | [] => pat.isEmpty
  | c :: rest => pat.isPrefixOf (c :: rest) || hasSub pat rest

/-- Substring test on `String`s: Python's `pat in s`. -/
def strContains (s pat : String) : Bool := hasSub pat.data s.data

/-- Drop everything up to and including the first occurrence of `pat`;
`none` when `pat` does not occur.  This is the scanning step shared by all
the lazy regexes below. -/
def dropAfterFirst (pat : List Char) : List Char → Option (List Char)
  | [] => if pat.isEmpty then some [] else none
  | c :: rest =>
    if pat.isPrefixOf (c :: rest) then some (List.drop pat.length (c :: rest))
    else dropAfterFirst pat rest

/-- Do the given literal pieces occur in `s`, in order, without overlapping?
This is exactly when a regex of the form `p₁.*?p₂.*?…` (with `re.DOTALL`)
matches `s`. -/
def seqContains (s : List Char) : List (List Char) → Bool
  | [] => true
  | p :: ps =>
    match dropAfterFirst p s with
    | none => false
    | some rest => seqContains rest ps

/-- One scanning pass of Python's `str.replace`, with explicit fuel (every
step consumes at least one character, so `s.length` fuel always suffices). -/
def replaceLoop (old new : List Char) : Nat → List Char → List Char
  | 0, s => s
  | _ + 1, [] => []
  | fuel + 1, c :: rest =>
    if old.isPrefixOf (c :: rest) then
      new ++ replaceLoop old new fuel (List.drop old.length (c :: rest))
    else c :: replaceLoop old new fuel rest

/-- Python's `s.replace(old, new)`: replace every (left-to-right,
non-overlapping) occurrence of `old` by `new`. -/
def pyReplace (s old new : List Char) : List Char :=
  match old with
  | [] => new ++ s.flatMap (fun c => c :: new)
  | _ => replaceLoop old new s.length s

/-- Python's `str.dropWhile`-style maximal run of spaces (the greedy `' *'`
in the feature-row regexes; only the literal space character). -/
def skipSpaces (l : List Char) : List Char := l.dropWhile (· == ' ')

/-- Take a line's worth of characters: everything before the next newline.
This is `(.*?)$` (no `DOTALL`) applied after a literal. -/
def takeLine : List Char → List Char
  | [] => []
  | c :: rest => if c == '\n' then [] else c :: takeLine rest

/-! ## The canonical status enumeration -/

/-- The closed status vocabulary shared by the three scripts. -/
inductive CanonicalStatus
  | notYetTested
  | testingInProgress
  | fullyCompatible
  | mostlyCompatible
  | partiallyCompatible
  | notCompatible
deriving DecidableEq, Repr

open CanonicalStatus

/-! ## `update_compatibility_matrix.py` -/

/-- The `STATUS_ICONS` table (lines 14–21 of the script). -/
def STATUS_ICONS : CanonicalStatus → String
  | fullyCompatible => "✅"
  | mostlyCompatible => "⚠️"
  | partiallyCompatible => "⛔"
  | notCompatible => "❌"
  | testingInProgress => "🔄"
  | notYetTested => "⏳"

/-- The `FEATURE_COLUMNS` list (lines 24–33). -/
def FEATURE_COLUMNS : List String :=
  ["Basic Mount", "Read Ops", "Write Ops", "Attrs", "Locking",
   "Large Files", "Unicode", "Overall"]

/-- The lazy tail of the section regex
`## {name}.*?(?:^#|$)` (`DOTALL | MULTILINE`): extend from just after the
literal until the first position where `^#` or `$` matches.  `atLS` records
whether the scanner sits at the start of a line; the entry position (right
after the section literal) never does, and since `$` fires just before every
newline the `^#` alternative is unreachable — the matched "section" is in
fact cut off at the end of the heading line. -/
def sectScan (atLS : Bool) : List Char → List Char
  | [] => []
  | c :: rest =>
    if atLS && c == '#' then ['#']
    else if c == '\n' then []
    else c :: sectScan false rest

/-- The match of `re.search(rf'## {sectionName}.*?(?:^#|$)', content,
re.DOTALL | re.MULTILINE)` (lines 113–117): `none` when the section literal
does not occur. -/
def extractSection (content : List Char) (sectionName : List Char) : Option (List Char) :=
  match dropAfterFirst (('#' :: '#' :: ' ' :: sectionName)) content with
  | none => none
  | some rest => some (('#' :: '#' :: ' ' :: sectionName) ++ sectScan false rest)

/-- Scan for `\| *{feature}` inside a section; return the remainder right
after the feature literal of the first cell that starts with it. -/
def afterFeatureCell (feat : List Char) : List Char → Option (List Char)
  | [] => none
  | c :: rest =>
    if c == '|' && feat.isPrefixOf (skipSpaces rest) then
      some (List.drop feat.length (skipSpaces rest))
    else afterFeatureCell feat rest

/-- Scan for the first `\| *(✅|⚠️|❌|🔄)` that is followed by another `\|`
(the `.*?\|` tail of the feature-row regex, line 120), and map the captured
icon to its status (lines 124–135).  Note `⛔` is not in this alternation,
so a feature can never resolve to `partiallyCompatible`. -/
def iconCell : List Char → Option CanonicalStatus
  | [] => none
  | c :: rest =>
    if c == '|' then
      let t := skipSpaces rest
      if ("✅").data.isPrefixOf t && hasSub ['|'] (List.drop 1 t) then some fullyCompatible
      else if ("⚠️").data.isPrefixOf t && hasSub ['|'] (List.drop 2 t) then some mostlyCompatible
      else if ("❌").data.isPrefixOf t && hasSub ['|'] (List.drop 1 t) then some notCompatible
      else if ("🔄").data.isPrefixOf t && hasSub ['|'] (List.drop 1 t) then some testingInProgress
      else iconCell rest
    else iconCell rest

/-- `extract_feature_status(content, feature_name, section_name)`
(lines 110–135). -/
def extract_feature_status (content feature sectionName : List Char) : CanonicalStatus :=
  match extractSection content sectionName with
  | none => notYetTested
  | some sect =>
    match afterFeatureCell feature sect with
    | none => notYetTested
    | some rest =>
      match iconCell rest with
      | none => notYetTested
      | some st => st

/-- The rating fragment captured by
`re.search(r'\*\*Overall Rating:\*\* *(.*?)$', content, re.MULTILINE)`
(line 66): the rest of the line after the first occurrence of the literal,
with the greedy run of spaces stripped. -/
def overallRating (content : List Char) : Option (List Char) :=
  (dropAfterFirst ("**Overall Rating:**").data content).map
    (fun r => takeLine (r.dropWhile (· == ' ')))

/-- The if/elif ladder mapping a rating fragment to a status (lines 70–79).
Each rung tests the symbolic icon and the phrase at the same priority; the
rungs are ordered Testing, Fully, Mostly, Partially, Not. -/
def statusFromRating (rating : List Char) : CanonicalStatus :=
  if hasSub ("🔄").data rating || hasSub ("Testing").data rating then testingInProgress
  else if hasSub ("✅").data rating || hasSub ("Fully").data rating then fullyCompatible
  else if hasSub ("⚠️").data rating || hasSub ("Mostly").data rating then mostlyCompatible
  else if hasSub ("⛔").data rating || hasSub ("Partially").data rating then partiallyCompatible
  else if hasSub ("❌").data rating || hasSub ("Not").data rating then notCompatible
  else notYetTested

/-- The `overall` value computed in `parse_client_report` (lines 66–79):
`Not Yet Tested` when no rating line exists, the ladder's answer otherwise. -/
def overallStatus (content : List Char) : CanonicalStatus :=
  match overallRating content with
  | none => notYetTested
  | some rating => statusFromRating rating

/-- The work-in-progress flag (line 63): `"In Progress" in content or "🔄" in
content`. -/
def is_wip (content : List Char) : Bool :=
  hasSub ("In Progress").data content || hasSub ("🔄").data content

/-- The (matrix column, feature row label, section name) triples of the
`features` dictionary built on lines 82–91, except the `"Overall"` entry. -/
def featureSpecs : List (String × String × String) :=
  [("Basic Mount", "Default", "Mount Operations"),
   ("Read Ops", "Basic Read", "Feature Compatibility"),
   ("Write Ops", "Basic Write", "Feature Compatibility"),
   ("Attrs", "Permission", "Feature Compatibility"),
   ("Locking", "File Locking", "Feature Compatibility"),
   ("Large Files", "Large Files", "Feature Compatibility"),
   ("Unicode", "Unicode", "Feature Compatibility")]

/-- The `features` dictionary of `parse_client_report` before the
work-in-progress pass, in insertion order (lines 82–91). -/
def resolveFeatures (content : List Char) : List (String × CanonicalStatus) :=
  (featureSpecs.map (fun s => (s.1, extract_feature_status content s.2.1.data s.2.2.data)))
    ++ [("Overall", overallStatus content)]

/-- One step of the work-in-progress pass (lines 94–97): upgrade
`Not Yet Tested` to `Testing in Progress`, leave everything else alone. -/
def floorFeature (p : String × CanonicalStatus) : String × CanonicalStatus :=
  if p.2 = notYetTested then (p.1, testingInProgress) else p

/-- The `features` dictionary as returned by `parse_client_report`: the
floor pass is applied exactly when the document is flagged in progress. -/
def parsedFeatures (content : List Char) : List (String × CanonicalStatus) :=
  if is_wip content then (resolveFeatures content).map floorFeature
  else resolveFeatures content

/-- Find the first line matching `^# …` (`re.MULTILINE` splits `content` at
newlines); return the rest of that line after the `"# "` literal. -/
def findTitleLine : List (List Char) → Option (List Char)
  | [] => none
  | l :: ls => if ['#', ' '].isPrefixOf l then some (List.drop 2 l) else findTitleLine ls

/-- Does the rest of a title line parse as the optional parenthetical
`( \(.*?\))?$`?  Either nothing is left, or what is left starts with `" ("`
and ends with `)`. -/
def parenTail (r : List Char) : Bool :=
  r.isEmpty || ((' ' :: '(' :: []).isPrefixOf r && r.getLast? == some ')')

/-- Group 1 of `^# (.*?)( \(.*?\))?$` on the rest of the title line: the
shortest prefix whose complement is an admissible parenthetical tail. -/
def titleSplit : List Char → List Char
  | [] => []
  | c :: rest => if parenTail (c :: rest) then [] else c :: titleSplit rest

/-- Python's `full_title.rsplit(" ", 1)`, as (client, version): split at the
last space. -/
def rsplitSpace (t : List Char) : List Char × List Char :=
  let r := t.reverse
  let v := r.takeWhile (fun c => !(c == ' '))
  ((r.drop (v.length + 1)).reverse, v.reverse)

/-- The parsed form of one client report returned by `parse_client_report`
(lines 102–108).  `overall` is the raw rating-ladder answer — the
work-in-progress floor is applied to the `features` map only. -/
structure ClientData where
  client : String
  version : String
  overall : CanonicalStatus
  features : List (String × CanonicalStatus)
  filename : String
deriving DecidableEq, Repr

/-- `parse_client_report(file_path)` (lines 35–108) on the report's
post-frontmatter body.  `filename` stands for `os.path.basename(file_path)`.
`none` models the `return None` taken when no title line matches. -/
def parse_client_report (filename content : String) : Option ClientData :=
  match findTitleLine (content.data.splitOn '\n') with
  | none => none
  | some lineRest =>
    let fullTitle := titleSplit lineRest
    let cv :=
      if hasSub [' '] fullTitle && !(fullTitle.getLast? == some '+') then rsplitSpace fullTitle
      else (fullTitle, [])
    some { client := ⟨cv.1⟩, version := ⟨cv.2⟩,
           overall := overallStatus content.data,
           features := parsedFeatures content.data,
           filename := filename }

/-- Dictionary lookup `client["features"][feature]`; the default is
unreachable because `parse_client_report` populates every column. -/
def lookupStatus (features : List (String × CanonicalStatus)) (name : String) : CanonicalStatus :=
  match features.lookup name with
  | some s => s
  | none => notYetTested

/-- One rendered matrix row (lines 183–192), including the `row[:-2]` splice
that folds the report hyperlink into the last cell when the overall status
is not `Not Yet Tested`. -/
def renderRow (c : ClientData) : String :=
  let base := "| " ++ c.client ++ " | " ++ c.version ++ " | " ++
    String.join (FEATURE_COLUMNS.map (fun f => STATUS_ICONS (lookupStatus c.features f) ++ " | "))
  if c.overall ≠ notYetTested then
    ⟨base.data.dropLast.dropLast⟩ ++ "[" ++ STATUS_ICONS c.overall ++ "](./clients/" ++ c.filename ++ ") |"
  else base

/-- First-occurrence-order deduplication: the iteration order of the
`clients_by_name` dictionary's keys. -/
def dedupFirst : List String → List String
  | [] => []
  | n :: rest => n :: (dedupFirst rest).filter (fun m => !(m == n))

/-- Insert into an ascending list (Python's `sorted` on the key list). -/
def insertAsc (n : String) : List String → List String
  | [] => [n]
  | m :: rest => if n < m then n :: m :: rest else m :: insertAsc n rest

/-- Ascending sort of the client names, matching `sorted(clients_by_name.keys())`. -/
def sortAsc : List String → List String
  | [] => []
  | n :: rest => insertAsc n (sortAsc rest)

/-- Stable descending insertion by version string, matching
`sort(key=lambda c: c["version"], reverse=True)` (line 162). -/
def insertVerDesc (c : ClientData) : List ClientData → List ClientData
  | [] => [c]
  | d :: rest => if d.version < c.version then c :: d :: rest else d :: insertVerDesc c rest

/-- Stable descending sort by version string. -/
def sortVerDesc (l : List ClientData) : List ClientData :=
  l.foldl (fun acc c => insertVerDesc c acc) []

/-- The fixed matrix header (lines 176–178). -/
def matrixHeader : String :=
  "## Compatibility Matrix\n\n| Client | Version | " ++
    String.intercalate " | " FEATURE_COLUMNS ++ " |\n" ++
  "|--------|---------|" ++
    String.intercalate "|" (FEATURE_COLUMNS.map (fun _ => ":-------:")) ++ "|\n"

/-- The freshly rendered matrix `new_matrix` (lines 152–194): group rows by
client name, iterate names in sorted order, each group sorted by version
descending, and join the rows. -/
def renderMatrix (clients : List ClientData) : String :=
  let names := sortAsc (dedupFirst (clients.map (fun c => c.client)))
  let rows := names.flatMap
    (fun n => (sortVerDesc (clients.filter (fun c => c.client == n))).map renderRow)
  matrixHeader ++ String.intercalate "\n" rows ++ "\n\n"

/-- The literal head of the matrix-locating regex
`(## Compatibility Matrix\n\n\| Client \| Version \|.*?\n\n)` (line 170). -/
def MATRIX_ANCHOR : List Char := ("## Compatibility Matrix\n\n| Client | Version |").data

/-- The lazy tail `.*?\n\n` (`DOTALL`): the prefix up to and including the
first blank line, `none` when there is none. -/
def takeThroughBlank : List Char → Option (List Char)
  | '\n' :: '\n' :: _ => some ['\n', '\n']
  | c :: rest => (takeThroughBlank rest).map (fun l => c :: l)
  | [] => none

/-- Group 1 of the matrix-locating regex: the block starting at the first
occurrence of the anchor and extending to the first blank line after it. -/
def findMatrixBlock : List Char → Option (List Char)
  | [] => none
  | c :: rest =>
    if MATRIX_ANCHOR.isPrefixOf (c :: rest) then
      (takeThroughBlank (List.drop MATRIX_ANCHOR.length (c :: rest))).map
        (fun t => MATRIX_ANCHOR ++ t)
    else findMatrixBlock rest

/-- Parse every report, keeping the successes (lines 146–150). -/
def parseReports (reports : List (String × String)) : List ClientData :=
  reports.filterMap (fun r => parse_client_report r.1 r.2)

/-- `update_compatibility_matrix()` (lines 137–203) on explicit inputs:
the discovered (filename, body) report pairs and the body of `index.md`.
`none` models the early returns that leave `index.md` unwritten (no reports
found, or the matrix anchor not found); `some doc` is the document written
back, produced by `content.replace(matrix_match.group(1), new_matrix)` —
note this replaces *every* occurrence of the matched block. -/
def update_compatibility_matrix (reports : List (String × String)) (index : String) :
    Option String :=
  if reports.isEmpty then none
  else
    match findMatrixBlock index.data with
    | none => none
    | some block =>
      some ⟨pyReplace index.data block (renderMatrix (parseReports reports)).data⟩

/-- `main()` (lines 205–212): the exit code paired with the document written,
if any.  `update_compatibility_matrix` returns normally on every modelled
path — in particular the anchor-not-found path prints and returns — so the
`except` branch is never taken and the exit code is 0. -/
def matrix_main (reports : List (String × String)) (index : String) : Nat × Option String :=
  (0, update_compatibility_matrix reports index)

/-! ## `validate_client_reports.py` -/

/-- The `REQUIRED_SECTIONS` list (lines 13–20). -/
def REQUIRED_SECTIONS : List String :=
  ["Compatibility Summary", "Mount Operations", "Feature Compatibility",
   "Performance Metrics", "Test Environment Details", "Test Cases Executed"]

/-- Does `pat` occur directly after some newline of `content`? -/
def afterNewline (pat : List Char) : List Char → Bool
  | [] => false
  | c :: rest => (c == '\n' && pat.isPrefixOf rest) || afterNewline pat rest

/-- The required-section probe
`re.search(r'^## ' + re.escape(section), content, re.MULTILINE)` (line 57):
some line of `content` starts with `## ` followed by the section name. -/
def sectionHeadingPresent (content : List Char) (name : String) : Bool :=
  ("## " ++ name).data.isPrefixOf content || afterNewline ("## " ++ name).data content

/-- The `missing_sections` list (lines 55–58). -/
def missing_sections (content : List Char) : List String :=
  REQUIRED_SECTIONS.filter (fun s => !(sectionHeadingPresent content s))

/-- Whether `re.search(rf'{heading}.*?\|(.*?)\n((?:\|.*\n)+)', content,
re.DOTALL)` matches (lines 65 and 81): the heading, a `|`, a newline
immediately followed by `|`, and a newline must occur in this order (the
lazy/greedy gaps in between are unconstrained under `DOTALL`). -/
def tablePattern (heading : String) (content : List Char) : Bool :=
  seqContains content [heading.data, ['|'], ['\n', '|'], ['\n']]

/-- The boolean result of `validate_client_report(file_path)` (lines 41–111)
on the post-frontmatter body.  The three `ERROR`/`return False` paths are
the missing required sections (line 62), the mount-operations table probe
(line 68) and the feature-compatibility table probe (line 84); the remaining
checks (mount-option rows, feature rows, performance table, environment
details, checklist, lines 71–108) only print `WARNING`s and never change
the returned value. -/
def validate_client_report (content : String) : Bool :=
  if !(missing_sections content.data).isEmpty then false
  else if !(tablePattern "## Mount Operations" content.data) then false
  else if !(tablePattern "## Feature Compatibility" content.data) then false
  else true

/-! ## `check_progress_consistency.py` -/

/-- The ASCII whitespace matched by Python's `\s`. -/
def isPySpace (c : Char) : Bool :=
  c == ' ' || c == '\t' || c == '\n' || c == '\r' || c == '\x0b' || c == '\x0c'

/-- The literal of the kernel-qualifier rewrite. -/
def kernelLit : List Char := ("kernel").data

/-- `re.sub(r'\s*kernel\s*', '-', name)` (line 80): scanning left to right,
replace every maximal-whitespace-run + `kernel` + maximal-whitespace-run
with a single dash.  Fuel: every step consumes at least one character. -/
def kernelSub : Nat → List Char → List Char
  | 0, s => s
  | _ + 1, [] => []
  | fuel + 1, c :: rest =>
    let t := (c :: rest).dropWhile isPySpace
    if kernelLit.isPrefixOf t then
      '-' :: kernelSub fuel ((List.drop kernelLit.length t).dropWhile isPySpace)
    else c :: kernelSub fuel rest

/-- `re.sub(r'\s*\([^)]*\)', '', name)` (line 81): drop every
whitespace-run + `(` + (chars up to the first `)`) + `)` chunk, scanning
left to right. -/
def parenSub : Nat → List Char → List Char
  | 0, s => s
  | _ + 1, [] => []
  | fuel + 1, c :: rest =>
    let t := (c :: rest).dropWhile isPySpace
    let u := (t.drop 1).dropWhile (fun x => !(x == ')'))
    if t.head? == some '(' && u.head? == some ')' then parenSub fuel (u.drop 1)
    else c :: parenSub fuel rest

/-- `re.sub(r'[+]+$', '', name)` (line 82).  Python's `$` matches at the end
of the string and also just before a trailing newline, so the removed run of
`+` sits either at the very end or right before a final newline. -/
def plusEnd (s : List Char) : List Char :=
  if s.reverse.head? == some '\n' then
    ('\n' :: (s.reverse.drop 1).dropWhile (· == '+')).reverse
  else (s.reverse.dropWhile (· == '+')).reverse

/-- `re.sub(r'\s+', '-', name)` (line 83): every maximal whitespace run
becomes one dash. -/
def wsSub : Nat → List Char → List Char
  | 0, s => s
  | _ + 1, [] => []
  | fuel + 1, c :: rest =>
    if isPySpace c then '-' :: wsSub fuel (rest.dropWhile isPySpace)
    else c :: wsSub fuel rest

/-- `re.sub(r'-+', '-', name)` (line 84): every maximal dash run becomes one
dash. -/
def dashSub : Nat → List Char → List Char
  | 0, s => s
  | _ + 1, [] => []
  | fuel + 1, c :: rest =>
    if c == '-' then '-' :: dashSub fuel (rest.dropWhile (· == '-'))
    else c :: dashSub fuel rest

/-- Drop the trailing run of dashes. -/
def dropTrailingDashes : List Char → List Char
  | [] => []
  | c :: rest =>
    let r := dropTrailingDashes rest
    if r.isEmpty && c == '-' then [] else c :: r

/-- Python's `name.strip('-')` (line 85). -/
def stripDashes (l : List Char) : List Char :=
  dropTrailingDashes (l.dropWhile (· == '-'))

/-- `normalize_client_name(name)` (lines 76–86).  `Char.toLower` is the
ASCII fragment of Python's `str.lower()`. -/
def normalize_client_name (s : String) : String :=
  let n0 := s.data.map Char.toLower
  let n1 := kernelSub n0.length n0
  let n2 := parenSub n1.length n1
  let n3 := plusEnd n2
  let n4 := wsSub n3.length n3
  let n5 := dashSub n4.length n4
  ⟨stripDashes n5⟩

/-- `find_matching_client(client_name, progress_clients)` (lines 88–99):
first candidate (in iteration order) whose normal form contains or is
contained in the report name's normal form.  The second, equality test of
the loop body is kept although it is subsumed by the containment test. -/
def find_matching_client (name : String) : List String → Option String
  | [] => none
  | q :: qs =>
    let nr := (normalize_client_name name).data
    let np := (normalize_client_name q).data
    if hasSub nr np || hasSub np nr then some q
    else if nr == np then some q
    else find_matching_client name qs

/-- Python dict assignment `d[k] = v`: update in place when the key exists
(keeping its position), append otherwise. -/
def dictInsert (k v : String) (d : List (String × String)) : List (String × String) :=
  if d.any (fun p => p.1 == k) then d.map (fun p => if p.1 == k then (k, v) else p)
  else d ++ [(k, v)]

/-- The per-report status of `get_client_status_from_reports` (lines 20–25):
`in_progress` exactly when the raw file content contains `"In Progress"` or
`"🔄"`, `completed` otherwise. -/
def reportStatus (content : String) : String :=
  if hasSub ("In Progress").data content.data || hasSub ("🔄").data content.data then
    "in_progress"
  else "completed"

/-- `get_client_status_from_reports()` (lines 11–27) on the discovered
(basename, raw content) pairs; the key is the filename with every `".md"`
occurrence removed by `str.replace`. -/
def get_client_status_from_reports (files : List (String × String)) :
    List (String × String) :=
  files.foldl (fun d f => dictInsert ⟨pyReplace f.1.data (".md").data []⟩ (reportStatus f.2) d) []

/-- The status derived from one queue-row status cell (lines 64–70). -/
def statusFromCell (cell : String) : String :=
  if hasSub ("🔄").data cell.data then "in_progress"
  else if hasSub ("✅").data cell.data then "completed"
  else "not_started"

/-- `get_client_status_from_progress()` (lines 29–74) on the queue rows
already cut out of the table as (client cell, status cell) pairs — the
table-locating regex and row splitting of lines 40–60 are input plumbing. -/
def get_client_status_from_progress (rows : List (String × String)) :
    List (String × String) :=
  rows.foldl (fun d r => dictInsert r.1 (statusFromCell r.2) d) []

/-- The three kinds of findings `check_consistency` can append. -/
inductive DiscrepancyKind
  | missingFromQueue
  | completedNotReflected
  | inProgressNotReflected
deriving DecidableEq, Repr

/-- One finding: the report-side client name it is about, and its kind. -/
structure Discrepancy where
  client : String
  kind : DiscrepancyKind
deriving DecidableEq, Repr

/-- Dictionary access `progress_status[matching_progress_client]`; the
default is unreachable since the key comes from the dict itself. -/
def lookupStr (d : List (String × String)) (k : String) : String :=
  match d.lookup k with
  | some v => v
  | none => ""

/-- The `inconsistencies` list built by `check_consistency()`
(lines 101–124): a first pass over the report dict appends
missing-from-queue findings, a second pass appends the status-mismatch
findings for matched clients. -/
def check_consistency (rep prog : List (String × String)) : List Discrepancy :=
  (rep.filterMap (fun p =>
    match find_matching_client p.1 (prog.map (fun q => q.1)) with
    | none => some ⟨p.1, DiscrepancyKind.missingFromQueue⟩
    | some _ => none))
  ++ (rep.filterMap (fun p =>
    match find_matching_client p.1 (prog.map (fun q => q.1)) with
    | none => none
    | some q =>
      let ps := lookupStr prog q
      if p.2 == "completed" && !(ps == "completed") then
        some ⟨p.1, DiscrepancyKind.completedNotReflected⟩
      else if p.2 == "in_progress" && !(ps == "in_progress") then
        some ⟨p.1, DiscrepancyKind.inProgressNotReflected⟩
      else none))

/-! ## Support definitions used by the claim statements and proofs -/

/-- The symbolic marker the rating ladder associates with a status. -/
def markerOf : CanonicalStatus → Option String
  | CanonicalStatus.testingInProgress => some "🔄"
  | CanonicalStatus.fullyCompatible => some "✅"
  | CanonicalStatus.mostlyCompatible => some "⚠️"
  | CanonicalStatus.partiallyCompatible => some "⛔"
  | CanonicalStatus.notCompatible => some "❌"
  | CanonicalStatus.notYetTested => none

/-- The phrase the rating ladder associates with a status. -/
def phraseOf : CanonicalStatus → Option String
  | CanonicalStatus.testingInProgress => some "Testing"
  | CanonicalStatus.fullyCompatible => some "Fully"
  | CanonicalStatus.mostlyCompatible => some "Mostly"
  | CanonicalStatus.partiallyCompatible => some "Partially"
  | CanonicalStatus.notCompatible => some "Not"
  | CanonicalStatus.notYetTested => none

/-- Does an optional token occur in the rating fragment? -/
def optSignal (rating : List Char) : Option String → Bool
  | none => false
  | some w => hasSub w.data rating

/-- A status is signalled by a rating fragment when its marker or its phrase
occurs in the fragment. -/
def signalled (rating : List Char) (a : CanonicalStatus) : Bool :=
  optSignal rating (markerOf a) || optSignal rating (phraseOf a)

/-- The priority the rating ladder gives each status: the ladder returns the
signalled status of greatest priority (and `notYetTested`, priority 0, when
nothing is signalled). -/
def statusPriority : CanonicalStatus → Nat
  | CanonicalStatus.notYetTested => 0
  | CanonicalStatus.notCompatible => 1
  | CanonicalStatus.partiallyCompatible => 2
  | CanonicalStatus.mostlyCompatible => 3
  | CanonicalStatus.fullyCompatible => 4
  | CanonicalStatus.testingInProgress => 5

/-- No occurrence of `old` starts inside `pre` when the text continues with
`tail`: at every nonempty suffix split of `pre` the pattern fails to match. -/
def noOccWithin (old : List Char) : List Char → List Char → Bool
  | [], _ => true
  | c :: pre, tail =>
    !(old.isPrefixOf (c :: (pre ++ tail))) && noOccWithin old pre tail

/-- No opening parenthesis is followed (anywhere later) by a closing one. -/
def noParenPair : List Char → Bool
  | [] => true
  | c :: rest => if c == '(' then !(rest.contains ')') else noParenPair rest

/-- No two adjacent dashes. -/
def noDD : List Char → Bool
  | [] => true
  | [_] => true
  | a :: b :: rest => !(a == '-' && b == '-') && noDD (b :: rest)

/-! ## General lemmas -/

theorem string_mk_data (s : String) : (⟨s.data⟩ : String) = s := by
  cases s
  rfl

theorem replaceLoop_no_occ (old new : List Char) :
    ∀ fuel s, hasSub old s = false → replaceLoop old new fuel s = s := by
  intro fuel
  induction fuel with
  | zero => intro s _; rfl
  | succ f ih =>
    intro s h
    cases s with
    | nil => rfl
    | cons c rest =>
      rw [hasSub] at h
      simp only [Bool.or_eq_false_iff] at h
      rw [replaceLoop, if_neg (by simp [h.1]), ih rest h.2]

theorem isPrefixOf_append (old post : List Char) : old.isPrefixOf (old ++ post) = true :=
  List.isPrefixOf_iff_prefix.mpr (List.prefix_append old post)

theorem replaceLoop_splice (old new post : List Char) (hne : old ≠ [])
    (hpost : hasSub old post = false) :
    ∀ pre fuel, noOccWithin old pre (old ++ post) = true → pre.length < fuel →
      replaceLoop old new fuel (pre ++ old ++ post) = pre ++ new ++ post := by
  intro pre
  induction pre with
  | nil =>
    intro fuel _ hf
    cases fuel with
    | zero => omega
    | succ f =>
      obtain ⟨o, os, rfl⟩ : ∃ o os, old = o :: os := by
        cases old with
        | nil => exact absurd rfl hne
        | cons o os => exact ⟨o, os, rfl⟩
      simp only [List.nil_append, List.cons_append]
      rw [replaceLoop, if_pos (by simp [isPrefixOf_append (o :: os) post])]
      have hdrop : List.drop (o :: os).length ((o :: os) ++ post) = post := List.drop_left _ _
      simp only [List.cons_append] at hdrop
      rw [hdrop, replaceLoop_no_occ _ _ _ _ hpost]
  | cons c pre ih =>
    intro fuel hno hf
    cases fuel with
    | zero => omega
    | succ f =>
      rw [noOccWithin] at hno
      simp only [Bool.and_eq_true, Bool.not_eq_true'] at hno
      have hpre : old.isPrefixOf (c :: (pre ++ (old ++ post))) = false := hno.1
      simp only [List.cons_append, List.append_assoc]
      rw [replaceLoop, if_neg (by simp [hpre])]
      have hlen : pre.length < f := by
        simp only [List.length_cons] at hf
        omega
      have hrec := ih f hno.2 hlen
      simp only [List.cons_append, List.append_assoc] at hrec
      rw [hrec]

theorem replaceLoop_self (old : List Char) :
    ∀ fuel s, replaceLoop old old fuel s = s := by
  intro fuel
  induction fuel with
  | zero => intro s; rfl
  | succ f ih =>
    intro s
    cases s with
    | nil => rfl
    | cons c rest =>
      rw [replaceLoop]
      by_cases h : old.isPrefixOf (c :: rest) = true
      · rw [if_pos h]
        obtain ⟨t, ht⟩ := List.isPrefixOf_iff_prefix.mp h
        rw [ih]
        conv_rhs => rw [← ht]
        rw [← ht, List.drop_left]
      · rw [if_neg h, ih]

theorem pyReplace_cons (s new : List Char) (x : Char) (xs : List Char) :
    pyReplace s (x :: xs) new = replaceLoop (x :: xs) new s.length s := rfl

theorem pyReplace_self (s old : List Char) : pyReplace s old old = s := by
  cases old with
  | nil =>
    simp only [pyReplace]
    induction s with
    | nil => rfl
    | cons c rest ih => simp [ih]
  | cons o os => exact replaceLoop_self (o :: os) s.length s

/-! ## Claim C1 -/

/-- Claim C1, counterexample: the overall-rating fragment `"⚠️ Testing"`
contains the symbolic marker `⚠️` (denoting `mostlyCompatible`) and the
contradicting phrase `"Testing"` (denoting `testingInProgress`), yet the
rating ladder resolves it to the phrase's status, not the marker's — the
ladder tries the statuses in a fixed priority order with marker and phrase
at equal rank, so a marker does not beat a phrase of a higher-ranked
status. -/
theorem c1_counterexample :
    markerOf mostlyCompatible = some "⚠️" ∧
    phraseOf testingInProgress = some "Testing" ∧
    strContains "⚠️ Testing" "⚠️" = true ∧
    strContains "⚠️ Testing" "Testing" = true ∧
    statusFromRating ("⚠️ Testing").data = testingInProgress ∧
    statusFromRating ("⚠️ Testing").data ≠ mostlyCompatible :=
  ⟨rfl, rfl, by decide, by decide, by decide, by decide⟩

/-- Claim C1, amended: the rating ladder resolves a fragment to a status of
maximal `statusPriority` among all signalled statuses (marker or phrase),
and the result is itself signalled.  A symbolic marker therefore beats a
contradicting phrase exactly when the marker's status has the higher
priority — not unconditionally, as the original claim stated. -/
theorem c1_highest_signal_wins (rating : List Char) (a : CanonicalStatus)
    (h : signalled rating a = true) :
    signalled rating (statusFromRating rating) = true ∧
    statusPriority a ≤ statusPriority (statusFromRating rating) := by
  unfold statusFromRating
  by_cases h1 : (hasSub ("🔄").data rating || hasSub ("Testing").data rating) = true
  · rw [if_pos h1]
    refine ⟨by simp [signalled, optSignal, markerOf, phraseOf, h1], ?_⟩
    cases a <;> simp [statusPriority]
  · rw [if_neg h1]
    rw [Bool.not_eq_true] at h1
    by_cases h2 : (hasSub ("✅").data rating || hasSub ("Fully").data rating) = true
    · rw [if_pos h2]
      refine ⟨by simp [signalled, optSignal, markerOf, phraseOf, h2], ?_⟩
      cases a <;> simp_all [signalled, optSignal, markerOf, phraseOf, statusPriority]
    · rw [if_neg h2]
      rw [Bool.not_eq_true] at h2
      by_cases h3 : (hasSub ("⚠️").data rating || hasSub ("Mostly").data rating) = true
      · rw [if_pos h3]
        refine ⟨by simp [signalled, optSignal, markerOf, phraseOf, h3], ?_⟩
        cases a <;> simp_all [signalled, optSignal, markerOf, phraseOf, statusPriority]
      · rw [if_neg h3]
        rw [Bool.not_eq_true] at h3
        by_cases h4 : (hasSub ("⛔").data rating || hasSub ("Partially").data rating) = true
        · rw [if_pos h4]
          refine ⟨by simp [signalled, optSignal, markerOf, phraseOf, h4], ?_⟩
          cases a <;> simp_all [signalled, optSignal, markerOf, phraseOf, statusPriority]
        · rw [if_neg h4]
          rw [Bool.not_eq_true] at h4
          by_cases h5 : (hasSub ("❌").data rating || hasSub ("Not").data rating) = true
          · rw [if_pos h5]
            refine ⟨by simp [signalled, optSignal, markerOf, phraseOf, h5], ?_⟩
            cases a <;> simp_all [signalled, optSignal, markerOf, phraseOf, statusPriority]
          · rw [if_neg h5]
            rw [Bool.not_eq_true] at h5
            exfalso
            cases a <;> simp_all [signalled, optSignal, markerOf, phraseOf]

/-- Witness for `c1_highest_signal_wins` at the counterexample fragment:
`mostlyCompatible` is signalled in `"⚠️ Testing"` and the resolved status
`testingInProgress` is signalled with at least its priority. -/
theorem c1_highest_signal_wins_witness :
    signalled ("⚠️ Testing").data mostlyCompatible = true ∧
    signalled ("⚠️ Testing").data (statusFromRating ("⚠️ Testing").data) = true ∧
    statusPriority mostlyCompatible ≤
      statusPriority (statusFromRating ("⚠️ Testing").data) := by
  have h := c1_highest_signal_wins ("⚠️ Testing").data mostlyCompatible (by decide)
  exact ⟨by decide, h.1, h.2⟩

/-! ## Claim C2 -/

/-- Claim C2 (confirmed): in a report flagged in progress, every feature
whose per-feature resolution is `notYetTested` is returned as
`testingInProgress`; every feature resolved to a terminal outcome is
returned unchanged; and without the flag no feature is altered. -/
theorem c2_wip_floor (content : List Char) (name : String) (s : CanonicalStatus)
    (hmem : (name, s) ∈ resolveFeatures content) :
    (is_wip content = true → s = notYetTested →
      (name, testingInProgress) ∈ parsedFeatures content) ∧
    (is_wip content = true →
      (s = fullyCompatible ∨ s = mostlyCompatible ∨ s = partiallyCompatible ∨
        s = notCompatible) →
      (name, s) ∈ parsedFeatures content) ∧
    (is_wip content = false → (name, s) ∈ parsedFeatures content) := by
  refine ⟨?_, ?_, ?_⟩
  · intro hw hs
    subst hs
    unfold parsedFeatures
    rw [if_pos hw]
    have hm := List.mem_map_of_mem floorFeature hmem
    simpa [floorFeature] using hm
  · intro hw hs
    unfold parsedFeatures
    rw [if_pos hw]
    have hm := List.mem_map_of_mem floorFeature hmem
    have hf : floorFeature (name, s) = (name, s) := by
      rcases hs with h | h | h | h <;> subst h <;> rfl
    rwa [hf] at hm
  · intro hw
    unfold parsedFeatures
    rw [if_neg (by simp [hw])]
    exact hmem

/-- Witness for `c2_wip_floor`: the report body `"🔄"` is flagged in
progress, resolves `"Basic Mount"` to `notYetTested`, and the returned
feature map carries it as `testingInProgress`. -/
theorem c2_wip_floor_witness :
    is_wip ("🔄").data = true ∧
    ("Basic Mount", notYetTested) ∈ resolveFeatures ("🔄").data ∧
    ("Basic Mount", testingInProgress) ∈ parsedFeatures ("🔄").data :=
  ⟨by decide, by decide,
    (c2_wip_floor ("🔄").data "Basic Mount" notYetTested (by decide)).1 (by decide) rfl⟩

/-! ## Claim C3 -/

/-- Claim C3, counterexample: a report whose metadata parses and which has
every required section heading — but no pipe tables at all — still fails
schema validation, because the mount-operations and feature-compatibility
table probes are `ERROR`/`return False` paths, not advisory.  The claim's
"fails if and only if a required section is absent" is therefore false. -/
theorem c3_counterexample :
    (∀ s ∈ REQUIRED_SECTIONS,
      sectionHeadingPresent ("## Compatibility Summary\n## Mount Operations\n## Feature Compatibility\n## Performance Metrics\n## Test Environment Details\n## Test Cases Executed\n").data s = true) ∧
    validate_client_report "## Compatibility Summary\n## Mount Operations\n## Feature Compatibility\n## Performance Metrics\n## Test Environment Details\n## Test Cases Executed\n" = false := by
  decide

/-- Claim C3, amended: for a report whose metadata parses, validation passes
iff every required section heading is present *and* the mount-operations and
feature-compatibility table patterns are found; the remaining findings
(missing option/feature rows, performance table, environment details,
checklist) are advisory and never change the boolean result. -/
theorem c3_pass_iff (content : String) :
    validate_client_report content = true ↔
      ((∀ s ∈ REQUIRED_SECTIONS, sectionHeadingPresent content.data s = true) ∧
       tablePattern "## Mount Operations" content.data = true ∧
       tablePattern "## Feature Compatibility" content.data = true) := by
  have hsec : (missing_sections content.data).isEmpty = true ↔
      ∀ s ∈ REQUIRED_SECTIONS, sectionHeadingPresent content.data s = true := by
    simp [missing_sections, List.isEmpty_iff, List.filter_eq_nil_iff]
  unfold validate_client_report
  cases hM : (missing_sections content.data).isEmpty <;>
    cases hT : tablePattern "## Mount Operations" content.data <;>
      cases hF : tablePattern "## Feature Compatibility" content.data <;>
        simp_all

/-! ## Claim C4 -/

/-- Claim C4, counterexample: a report with every required section except
`Performance Metrics`, with well-formed mount and feature tables, fails
schema validation — `Performance Metrics` is in `REQUIRED_SECTIONS`, so its
absence is a hard failure, not the advisory warning the claim describes
(only the performance *table* probe inside a present section is advisory). -/
theorem c4_counterexample :
    missing_sections ("## Compatibility Summary\n## Mount Operations\n| Default (no options) |\n| x |\n## Feature Compatibility\n| Basic Read |\n| y |\n## Test Environment Details\n## Test Cases Executed\n").data = ["Performance Metrics"] ∧
    tablePattern "## Mount Operations" ("## Compatibility Summary\n## Mount Operations\n| Default (no options) |\n| x |\n## Feature Compatibility\n| Basic Read |\n| y |\n## Test Environment Details\n## Test Cases Executed\n").data = true ∧
    tablePattern "## Feature Compatibility" ("## Compatibility Summary\n## Mount Operations\n| Default (no options) |\n| x |\n## Feature Compatibility\n| Basic Read |\n| y |\n## Test Environment Details\n## Test Cases Executed\n").data = true ∧
    validate_client_report "## Compatibility Summary\n## Mount Operations\n| Default (no options) |\n| x |\n## Feature Compatibility\n| Basic Read |\n| y |\n## Test Environment Details\n## Test Cases Executed\n" = false := by
  decide

/-- Claim C4, amended: a report missing the `Performance Metrics` section
heading fails schema validation (it is a required section), exactly as a
report missing `Feature Compatibility` does. -/
theorem c4_required_section_failures (content : String) :
    (sectionHeadingPresent content.data "Performance Metrics" = false →
      validate_client_report content = false) ∧
    (sectionHeadingPresent content.data "Feature Compatibility" = false →
      validate_client_report content = false) := by
  constructor <;> intro h
  · have hm : "Performance Metrics" ∈ missing_sections content.data := by
      simp [missing_sections, REQUIRED_SECTIONS, h]
    have hne : missing_sections content.data ≠ [] := List.ne_nil_of_mem hm
    unfold validate_client_report
    rw [if_pos (by simp [List.isEmpty_iff, hne])]
  · have hm : "Feature Compatibility" ∈ missing_sections content.data := by
      simp [missing_sections, REQUIRED_SECTIONS, h]
    have hne : missing_sections content.data ≠ [] := List.ne_nil_of_mem hm
    unfold validate_client_report
    rw [if_pos (by simp [List.isEmpty_iff, hne])]

/-- Witness for `c4_required_section_failures`: the one-line report `"# x\n"`
is missing both sections and fails validation. -/
theorem c4_required_section_failures_witness :
    sectionHeadingPresent ("# x\n").data "Performance Metrics" = false ∧
    validate_client_report "# x\n" = false :=
  ⟨by decide, (c4_required_section_failures "# x\n").1 (by decide)⟩

/-! ## Claims C5–C7: the matrix splice -/

theorem findMatrixBlock_anchor (s : List Char) :
    ∀ b, findMatrixBlock s = some b → ∃ t, b = MATRIX_ANCHOR ++ t := by
  induction s with
  | nil => intro b h; simp [findMatrixBlock] at h
  | cons c rest ih =>
    intro b h
    rw [findMatrixBlock] at h
    by_cases hp : MATRIX_ANCHOR.isPrefixOf (c :: rest) = true
    · rw [if_pos hp] at h
      obtain ⟨a, _, hfa⟩ := Option.map_eq_some'.mp h
      exact ⟨a, hfa.symm⟩
    · rw [if_neg hp] at h
      exact ih b h

set_option maxRecDepth 10000 in
/-- Claim C5, counterexample: with a report set none of whose members parses
(`"no title"` has no `# ` title line), the rendered matrix has no rows, the
block matched on the second run is one newline short of the block spliced in
by the first run, and the second run appends an extra newline — running the
update twice over the same unchanged report set is *not* byte-identical. -/
theorem c5_counterexample :
    (update_compatibility_matrix [("bad.md", "no title")]
        "## Compatibility Matrix\n\n| Client | Version |\n\n").isSome = true ∧
    update_compatibility_matrix [("bad.md", "no title")]
        ((update_compatibility_matrix [("bad.md", "no title")]
          "## Compatibility Matrix\n\n| Client | Version |\n\n").getD "") ≠
      update_compatibility_matrix [("bad.md", "no title")]
        "## Compatibility Matrix\n\n| Client | Version |\n\n" := by
  constructor
  · decide
  · decide

/-- Claim C5, amended: rendering is a pure function of the parsed reports
(deterministic by construction), and a second run is the identity on the
document whenever the block it locates is exactly the matrix rendered from
the same report set — replacing a block by itself changes nothing.  The
unconditional claim fails when no report parses (see `c5_counterexample`):
the block located next time is then one newline short of the spliced text. -/
theorem c5_second_splice_identity (reports : List (String × String)) (index : String)
    (hne : reports ≠ [])
    (hfind : findMatrixBlock index.data = some (renderMatrix (parseReports reports)).data) :
    update_compatibility_matrix reports index = some index := by
  unfold update_compatibility_matrix
  rw [if_neg (by simp [List.isEmpty_iff, hne])]
  simp only [hfind]
  rw [pyReplace_self, string_mk_data]

set_option maxRecDepth 10000 in
/-- Witness for `c5_second_splice_identity`: one parsed report and an index
document that is exactly the rendered matrix. -/
theorem c5_second_splice_identity_witness :
    update_compatibility_matrix [("r.md", "# A B\n**Overall Rating:** ✅\n")]
        (renderMatrix (parseReports [("r.md", "# A B\n**Overall Rating:** ✅\n")])) =
      some (renderMatrix (parseReports [("r.md", "# A B\n**Overall Rating:** ✅\n")])) :=
  c5_second_splice_identity _ _ (by decide) (by decide)

set_option maxRecDepth 10000 in
/-- Claim C6, counterexample: when the matched block's text occurs twice in
the index document, `content.replace` rewrites *both* occurrences — the
bytes of the second occurrence, outside the matched (first) block, change. -/
theorem c6_counterexample :
    update_compatibility_matrix [("r.md", "# A B\n**Overall Rating:** ✅\n")]
        "## Compatibility Matrix\n\n| Client | Version |\n\nmiddle\n## Compatibility Matrix\n\n| Client | Version |\n\n" =
      some ((renderMatrix (parseReports [("r.md", "# A B\n**Overall Rating:** ✅\n")])) ++
            "middle\n" ++
            (renderMatrix (parseReports [("r.md", "# A B\n**Overall Rating:** ✅\n")]))) ∧
    renderMatrix (parseReports [("r.md", "# A B\n**Overall Rating:** ✅\n")]) ≠
      "## Compatibility Matrix\n\n| Client | Version |\n\n" ∧
    update_compatibility_matrix [("r.md", "# A B\n**Overall Rating:** ✅\n")]
        "## Compatibility Matrix\n\n| Client | Version |\n\nmiddle\n## Compatibility Matrix\n\n| Client | Version |\n\n" ≠
      some ((renderMatrix (parseReports [("r.md", "# A B\n**Overall Rating:** ✅\n")])) ++
            "middle\n" ++ "## Compatibility Matrix\n\n| Client | Version |\n\n") := by
  refine ⟨by decide, by decide, by decide⟩

/-- Claim C6, amended: the update replaces every occurrence of the located
block's text; when that text occurs exactly once in the document — no
occurrence starts inside the prefix and none lies in the suffix — exactly
the located block is replaced and every byte outside it is unchanged. -/
theorem c6_unique_splice (reports : List (String × String)) (index : String)
    (B pre post : List Char)
    (hr : reports ≠ [])
    (hfind : findMatrixBlock index.data = some B)
    (hsplit : index.data = pre ++ B ++ post)
    (hpre : noOccWithin B pre (B ++ post) = true)
    (hpost : hasSub B post = false) :
    update_compatibility_matrix reports index =
      some ⟨pre ++ (renderMatrix (parseReports reports)).data ++ post⟩ := by
  obtain ⟨t, rfl⟩ := findMatrixBlock_anchor index.data B hfind
  have hBne : MATRIX_ANCHOR ++ t ≠ [] := by simp [MATRIX_ANCHOR]
  have hBpos : 0 < (MATRIX_ANCHOR ++ t).length := List.length_pos.mpr hBne
  unfold update_compatibility_matrix
  rw [if_neg (by simp [List.isEmpty_iff, hr])]
  simp only [hfind]
  have hdata : pyReplace index.data (MATRIX_ANCHOR ++ t)
      (renderMatrix (parseReports reports)).data =
      pre ++ (renderMatrix (parseReports reports)).data ++ post := by
    have hstep : pyReplace index.data (MATRIX_ANCHOR ++ t)
        (renderMatrix (parseReports reports)).data =
        replaceLoop (MATRIX_ANCHOR ++ t) (renderMatrix (parseReports reports)).data
          index.data.length index.data := by
      obtain ⟨x, xs, hA⟩ : ∃ x xs, MATRIX_ANCHOR ++ t = x :: xs := by
        cases hA : MATRIX_ANCHOR ++ t with
        | nil => exact absurd hA hBne
        | cons x xs => exact ⟨x, xs, rfl⟩
      rw [hA, pyReplace_cons]
    have hfuel : pre.length < (pre ++ (MATRIX_ANCHOR ++ t) ++ post).length := by
      simp only [List.length_append]
      have hMA : 0 < MATRIX_ANCHOR.length := by decide
      omega
    rw [hstep, hsplit]
    exact replaceLoop_splice (MATRIX_ANCHOR ++ t)
      (renderMatrix (parseReports reports)).data post hBne hpost pre
      (pre ++ (MATRIX_ANCHOR ++ t) ++ post).length hpre hfuel
  rw [hdata]

set_option maxRecDepth 10000 in
/-- Witness for `c6_unique_splice`: an index document that is exactly one
matrix block, split as empty prefix + block + empty suffix. -/
theorem c6_unique_splice_witness :
    update_compatibility_matrix [("r.md", "# A B\n**Overall Rating:** ✅\n")]
        "## Compatibility Matrix\n\n| Client | Version |\n\n" =
      some ⟨[] ++ (renderMatrix (parseReports [("r.md", "# A B\n**Overall Rating:** ✅\n")])).data ++ []⟩ :=
  c6_unique_splice [("r.md", "# A B\n**Overall Rating:** ✅\n")]
    "## Compatibility Matrix\n\n| Client | Version |\n\n"
    ("## Compatibility Matrix\n\n| Client | Version |\n\n").data [] []
    (by decide) (by decide) (by simp) (by decide) (by decide)

/-- Claim C7, counterexample: with a nonempty report set and an index
document in which the matrix anchor cannot be located, the run prints a
message, leaves the document unwritten — and exits 0, not non-zero: the
anchor-miss path is a plain `return`, so `main`'s `except` never fires. -/
theorem c7_counterexample :
    findMatrixBlock ("no anchor here").data = none ∧
    matrix_main [("r.md", "# A B\n**Overall Rating:** ✅\n")] "no anchor here" =
      (0, none) := by
  refine ⟨by decide, by decide⟩

/-- Claim C7, amended: when the matrix anchor cannot be located the index
document is not rewritten, but the entry point exits 0 — the failure is
only reported on standard output. -/
theorem c7_anchor_missing (reports : List (String × String)) (index : String)
    (h : findMatrixBlock index.data = none) :
    matrix_main reports index = (0, none) := by
  unfold matrix_main update_compatibility_matrix
  by_cases hr : reports.isEmpty = true
  · rw [if_pos hr]
  · rw [if_neg hr]
    simp [h]

/-- Witness for `c7_anchor_missing` at a concrete anchorless document. -/
theorem c7_anchor_missing_witness :
    matrix_main [("a.md", "b")] "x" = (0, none) :=
  c7_anchor_missing [("a.md", "b")] "x" (by decide)

/-! ## Claim C9 -/

/-- Claim C9 (confirmed): every discrepancy emitted by the consistency check
carries a client taken from the report-derived dict (both loops iterate over
`report_status` only), so an entity present in the progress queue with no
matching report never produces a discrepancy. -/
theorem c9_report_side_only (rep prog : List (String × String)) (d : Discrepancy)
    (hd : d ∈ check_consistency rep prog) :
    d.client ∈ rep.map Prod.fst ∧
    (∀ q ∈ prog.map Prod.fst, q ∉ rep.map Prod.fst → d.client ≠ q) := by
  have hcl : d.client ∈ rep.map Prod.fst := by
    unfold check_consistency at hd
    rw [List.mem_append] at hd
    rcases hd with h | h
    · obtain ⟨p, hp, he⟩ := List.mem_filterMap.mp h
      cases hf : find_matching_client p.1 (prog.map (fun q => q.1)) with
      | none =>
        rw [hf] at he
        simp only [Option.some.injEq] at he
        rw [← he]
        exact List.mem_map_of_mem Prod.fst hp
      | some q =>
        rw [hf] at he
        simp at he
    · obtain ⟨p, hp, he⟩ := List.mem_filterMap.mp h
      cases hf : find_matching_client p.1 (prog.map (fun q => q.1)) with
      | none =>
        rw [hf] at he
        simp at he
      | some q =>
        rw [hf] at he
        simp only [] at he
        split at he
        · simp only [Option.some.injEq] at he
          rw [← he]
          exact List.mem_map_of_mem Prod.fst hp
        · split at he
          · simp only [Option.some.injEq] at he
            rw [← he]
            exact List.mem_map_of_mem Prod.fst hp
          · simp at he
  refine ⟨hcl, ?_⟩
  intro q _ hnq heq
  exact hnq (heq ▸ hcl)

/-- Witness for `c9_report_side_only`: a report with no queue at all yields
one missing-from-queue discrepancy, about the report-side client. -/
theorem c9_report_side_only_witness :
    (⟨"a", DiscrepancyKind.missingFromQueue⟩ : Discrepancy) ∈
      check_consistency [("a", "completed")] [] ∧
    "a" ∈ [("a", "completed")].map Prod.fst :=
  ⟨by decide,
    (c9_report_side_only [("a", "completed")] []
      ⟨"a", DiscrepancyKind.missingFromQueue⟩ (by decide)).1⟩

/-! ## Claim C10 -/

/-- Claim C10 (confirmed): the report-derived status is binary —
`in_progress` exactly when the file content contains `"In Progress"` or
`"🔄"`, `completed` in every other case (`not_started` can only arise on the
queue side) — and a status-free report matched to a queue entry whose status
cell shows neither `✅` nor `🔄` yields a completed-but-not-reflected
discrepancy. -/
theorem c10_completed_default (fname content qname cell : String)
    (h1 : strContains content "In Progress" = false)
    (h2 : strContains content "🔄" = false)
    (h3 : strContains cell "✅" = false)
    (h4 : strContains cell "🔄" = false)
    (hmatch : find_matching_client (⟨pyReplace fname.data (".md").data []⟩ : String) [qname] =
      some qname) :
    (∀ c : String, reportStatus c = "in_progress" ∨ reportStatus c = "completed") ∧
    (∀ c : String, reportStatus c = "in_progress" ↔
      (hasSub ("In Progress").data c.data || hasSub ("🔄").data c.data) = true) ∧
    reportStatus content = "completed" ∧
    statusFromCell cell = "not_started" ∧
    (⟨(⟨pyReplace fname.data (".md").data []⟩ : String),
        DiscrepancyKind.completedNotReflected⟩ : Discrepancy) ∈
      check_consistency (get_client_status_from_reports [(fname, content)])
        (get_client_status_from_progress [(qname, cell)]) := by
  have h1' : hasSub ("In Progress").data content.data = false := h1
  have h2' : hasSub ("🔄").data content.data = false := h2
  have h3' : hasSub ("✅").data cell.data = false := h3
  have h4' : hasSub ("🔄").data cell.data = false := h4
  have hrs : reportStatus content = "completed" := by
    unfold reportStatus
    rw [if_neg (by simp [h1', h2'])]
  have hsc : statusFromCell cell = "not_started" := by
    unfold statusFromCell
    rw [if_neg (by simp [h4']), if_neg (by simp [h3'])]
  have hrep : get_client_status_from_reports [(fname, content)] =
      [((⟨pyReplace fname.data (".md").data []⟩ : String), reportStatus content)] := by
    simp [get_client_status_from_reports, dictInsert]
  have hprog : get_client_status_from_progress [(qname, cell)] =
      [(qname, statusFromCell cell)] := by
    simp [get_client_status_from_progress, dictInsert]
  refine ⟨?_, ?_, hrs, hsc, ?_⟩
  · intro c
    unfold reportStatus
    by_cases h : (hasSub ("In Progress").data c.data || hasSub ("🔄").data c.data) = true
    · rw [if_pos h]
      exact Or.inl rfl
    · rw [if_neg h]
      exact Or.inr rfl
  · intro c
    unfold reportStatus
    by_cases h : (hasSub ("In Progress").data c.data || hasSub ("🔄").data c.data) = true
    · rw [if_pos h]
      simp [h]
    · rw [if_neg h]
      simp [h]
  · rw [hrep, hprog, hrs, hsc]
    unfold check_consistency
    rw [List.mem_append]
    right
    simp only [List.map_cons, List.map_nil, List.filterMap]
    rw [hmatch]
    simp [lookupStr]

set_option maxRecDepth 10000 in
/-- Witness for `c10_completed_default`: the status-free report
`linux-5.15.md` matched to the queue entry `Linux 5.15` whose status cell is
`⏳` yields the completed-but-not-reflected discrepancy. -/
theorem c10_completed_default_witness :
    (⟨"linux-5.15", DiscrepancyKind.completedNotReflected⟩ : Discrepancy) ∈
      check_consistency (get_client_status_from_reports [("linux-5.15.md", "hello")])
        (get_client_status_from_progress [("Linux 5.15", "⏳")]) := by
  have h := (c10_completed_default "linux-5.15.md" "hello" "Linux 5.15" "⏳"
    (by decide) (by decide) (by decide) (by decide) (by decide)).2.2.2.2
  exact h

/-! ## Claim C8: lemmas about the normalization pipeline -/

theorem charOfNat_toNat {n : Nat} (h : n < 55296) : (Char.ofNat n).toNat = n := by
  have hv : n.isValidChar := Or.inl h
  simp only [Char.ofNat]
  rw [dif_pos hv]
  rfl

theorem toLower_idem (c : Char) : c.toLower.toLower = c.toLower := by
  simp only [Char.toLower]
  by_cases h : c.toNat ≥ 65 ∧ c.toNat ≤ 90
  · rw [if_pos h]
    have hv : c.toNat + 32 < 55296 := by
      rcases h with ⟨_, h2⟩
      omega
    rw [if_neg]
    rw [charOfNat_toNat hv]
    omega
  · rw [if_neg h, if_neg h]

theorem toLower_dash : Char.toLower '-' = '-' := by decide

theorem dropWhile_subset {p : Char → Bool} {l : List Char} : l.dropWhile p ⊆ l :=
  (List.dropWhile_sublist p).subset

theorem mem_kernelSub (c : Char) :
    ∀ fuel l, c ∈ kernelSub fuel l → c ∈ l ∨ c = '-' := by
  intro fuel
  induction fuel with
  | zero => intro l h; exact Or.inl h
  | succ f ih =>
    intro l h
    cases l with
    | nil => simp [kernelSub] at h
    | cons x rest =>
      simp only [kernelSub] at h
      by_cases hp : kernelLit.isPrefixOf ((x :: rest).dropWhile isPySpace) = true
      · rw [if_pos hp] at h
        rcases List.mem_cons.mp h with h1 | h2
        · exact Or.inr h1
        · rcases ih _ h2 with h3 | h3
          · have s1 : c ∈ List.drop kernelLit.length (List.dropWhile isPySpace (x :: rest)) :=
              dropWhile_subset h3
            have s2 : c ∈ List.dropWhile isPySpace (x :: rest) := List.drop_subset _ _ s1
            exact Or.inl (dropWhile_subset s2)
          · exact Or.inr h3
      · rw [if_neg hp] at h
        rcases List.mem_cons.mp h with h1 | h2
        · exact Or.inl (h1 ▸ List.mem_cons_self x rest)
        · rcases ih _ h2 with h3 | h3
          · exact Or.inl (List.mem_cons_of_mem x h3)
          · exact Or.inr h3

theorem mem_parenSub (c : Char) :
    ∀ fuel l, c ∈ parenSub fuel l → c ∈ l := by
  intro fuel
  induction fuel with
  | zero => intro l h; exact h
  | succ f ih =>
    intro l h
    cases l with
    | nil => simp [parenSub] at h
    | cons x rest =>
      simp only [parenSub] at h
      by_cases hp : ((((x :: rest).dropWhile isPySpace).head? == some '(') &&
          (((((x :: rest).dropWhile isPySpace).drop 1).dropWhile
            (fun y => !(y == ')'))).head? == some ')')) = true
      · rw [if_pos hp] at h
        have h3 := ih _ h
        have s1 : c ∈ ((((x :: rest).dropWhile isPySpace).drop 1).dropWhile
            (fun y => !(y == ')'))) := List.drop_subset _ _ h3
        have s2 : c ∈ (((x :: rest).dropWhile isPySpace).drop 1) := dropWhile_subset s1
        have s3 : c ∈ ((x :: rest).dropWhile isPySpace) := List.drop_subset _ _ s2
        exact dropWhile_subset s3
      · rw [if_neg hp] at h
        rcases List.mem_cons.mp h with h1 | h2
        · exact h1 ▸ List.mem_cons_self x rest
        · exact List.mem_cons_of_mem x (ih _ h2)

theorem mem_plusEnd (c : Char) (l : List Char) (h : c ∈ plusEnd l) : c ∈ l := by
  unfold plusEnd at h
  rw [← List.mem_reverse]
  by_cases hn : (l.reverse.head? == some '\n') = true
  · rw [if_pos hn] at h
    rw [List.mem_reverse] at h
    rcases List.mem_cons.mp h with h1 | h2
    · subst h1
      cases hr : l.reverse with
      | nil => rw [hr] at hn; simp at hn
      | cons y ys =>
        rw [hr] at hn
        simp only [List.head?_cons, beq_iff_eq, Option.some.injEq] at hn
        rw [hn]
        exact List.mem_cons_self _ _
    · exact List.drop_subset _ _ (dropWhile_subset h2)
  · rw [if_neg hn] at h
    rw [List.mem_reverse] at h
    exact dropWhile_subset h

theorem mem_wsSub (c : Char) :
    ∀ fuel l, c ∈ wsSub fuel l → c ∈ l ∨ c = '-' := by
  intro fuel
  induction fuel with
  | zero => intro l h; exact Or.inl h
  | succ f ih =>
    intro l h
    cases l with
    | nil => simp [wsSub] at h
    | cons x rest =>
      simp only [wsSub] at h
      by_cases hp : isPySpace x = true
      · rw [if_pos hp] at h
        rcases List.mem_cons.mp h with h1 | h2
        · exact Or.inr h1
        · rcases ih _ h2 with h3 | h3
          · exact Or.inl (List.mem_cons_of_mem x (dropWhile_subset h3))
          · exact Or.inr h3
      · rw [if_neg hp] at h
        rcases List.mem_cons.mp h with h1 | h2
        · exact Or.inl (h1 ▸ List.mem_cons_self x rest)
        · rcases ih _ h2 with h3 | h3
          · exact Or.inl (List.mem_cons_of_mem x h3)
          · exact Or.inr h3

theorem mem_dashSub (c : Char) :
    ∀ fuel l, c ∈ dashSub fuel l → c ∈ l ∨ c = '-' := by
  intro fuel
  induction fuel with
  | zero => intro l h; exact Or.inl h
  | succ f ih =>
    intro l h
    cases l with
    | nil => simp [dashSub] at h
    | cons x rest =>
      simp only [dashSub] at h
      by_cases hp : (x == '-') = true
      · rw [if_pos hp] at h
        rcases List.mem_cons.mp h with h1 | h2
        · exact Or.inr h1
        · rcases ih _ h2 with h3 | h3
          · exact Or.inl (List.mem_cons_of_mem x (dropWhile_subset h3))
          · exact Or.inr h3
      · rw [if_neg hp] at h
        rcases List.mem_cons.mp h with h1 | h2
        · exact Or.inl (h1 ▸ List.mem_cons_self x rest)
        · rcases ih _ h2 with h3 | h3
          · exact Or.inl (List.mem_cons_of_mem x h3)
          · exact Or.inr h3

theorem mem_dropTrailingDashes (c : Char) :
    ∀ l, c ∈ dropTrailingDashes l → c ∈ l := by
  intro l
  induction l with
  | nil => intro h; simp [dropTrailingDashes] at h
  | cons x rest ih =>
    intro h
    simp only [dropTrailingDashes] at h
    by_cases hp : ((dropTrailingDashes rest).isEmpty && (x == '-')) = true
    · rw [if_pos hp] at h
      simp at h
    · rw [if_neg hp] at h
      rcases List.mem_cons.mp h with h1 | h2
      · exact h1 ▸ List.mem_cons_self x rest
      · exact List.mem_cons_of_mem x (ih h2)

theorem mem_stripDashes (c : Char) (l : List Char) (h : c ∈ stripDashes l) : c ∈ l := by
  unfold stripDashes at h
  exact dropWhile_subset (mem_dropTrailingDashes c _ h)

theorem map_toLower_fixed (l : List Char) (h : ∀ c ∈ l, c.toLower = c) :
    l.map Char.toLower = l := by
  induction l with
  | nil => rfl
  | cons x rest ih =>
    simp only [List.map_cons]
    rw [h x (List.mem_cons_self x rest),
      ih (fun c hc => h c (List.mem_cons_of_mem x hc))]

theorem dropWhile_eq_self_of_head (p : Char → Bool) {x : Char} {rest : List Char}
    (h : p x = false) : (x :: rest).dropWhile p = x :: rest := by
  rw [List.dropWhile_cons, if_neg (by simp [h])]

theorem not_contains_beq (a : Char) : ∀ l : List Char, l.contains a = false →
    ∀ y ∈ l, (y == a) = false := by
  intro l
  induction l with
  | nil => intro _ y hy; simp at hy
  | cons x rest ih =>
    intro h y hy
    rw [List.contains_cons] at h
    simp only [Bool.or_eq_false_iff] at h
    rcases List.mem_cons.mp hy with h1 | h2
    · subst h1
      have : ¬ a = y := by
        intro hc
        rw [← beq_iff_eq (a := a) (b := y)] at hc
        rw [hc] at h
        exact Bool.true_eq_false.mp h.1
      simp only [beq_eq_false_iff_ne, ne_eq]
      exact fun hc => this hc.symm
    · exact ih h.2 y h2

theorem kernelSub_id : ∀ fuel l, (∀ c ∈ l, isPySpace c = false) →
    hasSub kernelLit l = false → kernelSub fuel l = l := by
  intro fuel
  induction fuel with
  | zero => intro l _ _; rfl
  | succ f ih =>
    intro l hws hker
    cases l with
    | nil => rfl
    | cons x rest =>
      have hd : (x :: rest).dropWhile isPySpace = x :: rest :=
        dropWhile_eq_self_of_head isPySpace (hws x (List.mem_cons_self x rest))
      rw [hasSub] at hker
      simp only [Bool.or_eq_false_iff] at hker
      simp only [kernelSub, hd]
      rw [if_neg (by simp [hker.1]),
        ih rest (fun c hc => hws c (List.mem_cons_of_mem x hc)) hker.2]

theorem noParenPair_of_not_contains (l : List Char) (h : l.contains ')' = false) :
    noParenPair l = true := by
  induction l with
  | nil => rfl
  | cons x rest ih =>
    rw [List.contains_cons] at h
    simp only [Bool.or_eq_false_iff] at h
    rw [noParenPair]
    by_cases hx : (x == '(') = true
    · rw [if_pos hx, h.2]
      rfl
    · rw [if_neg hx]
      exact ih h.2

theorem noParenPair_tail (x : Char) (rest : List Char)
    (h : noParenPair (x :: rest) = true) : noParenPair rest = true := by
  rw [noParenPair] at h
  by_cases hx : (x == '(') = true
  · rw [if_pos hx] at h
    exact noParenPair_of_not_contains rest (by simpa using h)
  · rwa [if_neg hx] at h

theorem parenSub_id : ∀ fuel l, (∀ c ∈ l, isPySpace c = false) →
    noParenPair l = true → parenSub fuel l = l := by
  intro fuel
  induction fuel with
  | zero => intro l _ _; rfl
  | succ f ih =>
    intro l hws hpp
    cases l with
    | nil => rfl
    | cons x rest =>
      have hd : (x :: rest).dropWhile isPySpace = x :: rest :=
        dropWhile_eq_self_of_head isPySpace (hws x (List.mem_cons_self x rest))
      have hrec := ih rest (fun c hc => hws c (List.mem_cons_of_mem x hc))
        (noParenPair_tail x rest hpp)
      simp only [parenSub, hd]
      by_cases hx : (x == '(') = true
      · have hnc : rest.contains ')' = false := by
          rw [noParenPair, if_pos hx] at hpp
          simpa using hpp
        have hu : ((x :: rest).drop 1).dropWhile (fun y => !(y == ')')) = [] := by
          rw [List.drop_one, List.tail_cons]
          rw [List.dropWhile_eq_nil_iff]
          intro y hy
          simp [not_contains_beq ')' rest hnc y hy]
        rw [hu]
        simp only [List.head?_nil]
        rw [if_neg (by simp), hrec]
      · rw [if_neg (by simp only [List.head?_cons]; simp [hx]), hrec]

theorem plusEnd_id (l : List Char) (hws : ∀ c ∈ l, isPySpace c = false)
    (hplus : l.getLast? ≠ some '+') : plusEnd l = l := by
  unfold plusEnd
  have hnl : (l.reverse.head? == some '\n') = false := by
    cases hr : l.reverse with
    | nil => rfl
    | cons y ys =>
      have hy : y ∈ l := by
        rw [← List.mem_reverse, hr]
        exact List.mem_cons_self y ys
      have := hws y hy
      simp only [List.head?_cons]
      simp only [beq_eq_false_iff_ne, ne_eq, Option.some.injEq]
      intro hc
      rw [hc] at this
      simp [isPySpace] at this
  rw [if_neg (by rw [hnl]; exact Bool.false_ne_true)]
  have hdw : l.reverse.dropWhile (fun c => c == '+') = l.reverse := by
    cases hr : l.reverse with
    | nil => rfl
    | cons y ys =>
      apply dropWhile_eq_self_of_head (fun c => c == '+')
      have hy : l.getLast? = some y := by
        rw [← List.head?_reverse, hr]
        rfl
      simp only [beq_eq_false_iff_ne, ne_eq]
      intro hc
      rw [hc] at hy
      exact hplus hy
  rw [hdw, List.reverse_reverse]

theorem wsSub_id : ∀ fuel l, (∀ c ∈ l, isPySpace c = false) → wsSub fuel l = l := by
  intro fuel
  induction fuel with
  | zero => intro l _; rfl
  | succ f ih =>
    intro l hws
    cases l with
    | nil => rfl
    | cons x rest =>
      rw [wsSub, if_neg (by simp [hws x (List.mem_cons_self x rest)]),
        ih rest (fun c hc => hws c (List.mem_cons_of_mem x hc))]

theorem noDD_tail (x : Char) (rest : List Char) (h : noDD (x :: rest) = true) :
    noDD rest = true := by
  cases rest with
  | nil => rfl
  | cons y ys =>
    rw [noDD] at h
    simp only [Bool.and_eq_true] at h
    exact h.2

theorem dashSub_nil (fuel : Nat) : dashSub fuel [] = [] := by
  cases fuel <;> rfl

theorem dashSub_id : ∀ fuel l, noDD l = true → dashSub fuel l = l := by
  intro fuel
  induction fuel with
  | zero => intro l _; rfl
  | succ f ih =>
    intro l hdd
    cases l with
    | nil => rfl
    | cons x rest =>
      rw [dashSub]
      by_cases hx : (x == '-') = true
      · rw [if_pos hx]
        have hx' : x = '-' := beq_iff_eq.mp hx
        cases rest with
        | nil => simp [dashSub_nil, hx']
        | cons y ys =>
          have hy : (y == '-') = false := by
            rw [noDD] at hdd
            simp only [Bool.and_eq_true, Bool.not_eq_true'] at hdd
            have := hdd.1
            rw [hx] at this
            simpa using this
          rw [dropWhile_eq_self_of_head (fun c => c == '-') hy,
            ih (y :: ys) (noDD_tail x _ hdd), hx']
      · rw [if_neg hx, ih rest (noDD_tail x rest hdd)]

theorem dropTrailingDashes_id : ∀ l : List Char, l.getLast? ≠ some '-' →
    dropTrailingDashes l = l := by
  intro l
  induction l with
  | nil => intro _; rfl
  | cons x rest ih =>
    intro h
    cases rest with
    | nil =>
      have hx : ¬ x = '-' := by
        intro hc
        exact h (by rw [hc]; rfl)
      simp [dropTrailingDashes, hx]
    | cons y ys =>
      rw [List.getLast?_cons_cons] at h
      have hr := ih h
      rw [dropTrailingDashes, hr]
      rw [if_neg (by simp)]

theorem stripDashes_id (l : List Char) (hh : l.head? ≠ some '-')
    (hl : l.getLast? ≠ some '-') : stripDashes l = l := by
  unfold stripDashes
  have hdw : l.dropWhile (fun c => c == '-') = l := by
    cases l with
    | nil => rfl
    | cons x rest =>
      apply dropWhile_eq_self_of_head (fun c => c == '-')
      simp only [List.head?_cons, ne_eq, Option.some.injEq] at hh
      simp [hh]
  rw [hdw, dropTrailingDashes_id l hl]

theorem contains_true_of_mem (a : Char) (l : List Char) (h : a ∈ l) :
    l.contains a = true := by
  simpa using h

theorem contains_false_of_not_mem (a : Char) (l : List Char) (h : a ∉ l) :
    l.contains a = false := by
  simpa using h

theorem head?_dropWhile_false (p : Char → Bool) : ∀ (l : List Char) (z : Char),
    (l.dropWhile p).head? = some z → p z = false := by
  intro l
  induction l with
  | nil => intro z h; simp at h
  | cons x rest ih =>
    intro z h
    rw [List.dropWhile_cons] at h
    by_cases hx : p x = true
    · rw [if_pos hx] at h
      exact ih z h
    · rw [if_neg hx] at h
      simp only [List.head?_cons, Option.some.injEq] at h
      subst h
      simpa using hx

theorem wsSub_noWs : ∀ fuel l, l.length ≤ fuel → ∀ c ∈ wsSub fuel l, isPySpace c = false := by
  intro fuel
  induction fuel with
  | zero =>
    intro l hl c hc
    rw [Nat.le_zero, List.length_eq_zero] at hl
    subst hl
    simp [wsSub] at hc
  | succ f ih =>
    intro l hl c hc
    cases l with
    | nil => simp [wsSub] at hc
    | cons x rest =>
      have hrest : rest.length ≤ f := by
        simp only [List.length_cons] at hl
        omega
      simp only [wsSub] at hc
      by_cases hx : isPySpace x = true
      · rw [if_pos hx] at hc
        rcases List.mem_cons.mp hc with h1 | h2
        · subst h1
          decide
        · exact ih _ (le_trans (List.Sublist.length_le (List.dropWhile_sublist _)) hrest) c h2
      · rw [if_neg hx] at hc
        rcases List.mem_cons.mp hc with h1 | h2
        · subst h1
          simpa using hx
        · exact ih rest hrest c h2

theorem dashSub_head : ∀ fuel l, (dashSub fuel l).head? = l.head? := by
  intro fuel
  cases fuel with
  | zero => intro l; rfl
  | succ f =>
    intro l
    cases l with
    | nil => rfl
    | cons x rest =>
      rw [dashSub]
      by_cases hx : (x == '-') = true
      · rw [if_pos hx]
        simp [beq_iff_eq.mp hx]
      · rw [if_neg hx]
        rfl

theorem dashSub_noDD : ∀ fuel l, l.length ≤ fuel → noDD (dashSub fuel l) = true := by
  intro fuel
  induction fuel with
  | zero =>
    intro l hl
    rw [Nat.le_zero, List.length_eq_zero] at hl
    subst hl
    rfl
  | succ f ih =>
    intro l hl
    cases l with
    | nil => rfl
    | cons x rest =>
      have hrest : rest.length ≤ f := by
        simp only [List.length_cons] at hl
        omega
      rw [dashSub]
      by_cases hx : (x == '-') = true
      · rw [if_pos hx]
        have hXlen : (rest.dropWhile (fun c => c == '-')).length ≤ f :=
          le_trans (List.Sublist.length_le (List.dropWhile_sublist _)) hrest
        have hY := ih _ hXlen
        cases hYc : dashSub f (rest.dropWhile (fun c => c == '-')) with
        | nil => rfl
        | cons z zs =>
          have hz : (z == '-') = false := by
            have hh := dashSub_head f (rest.dropWhile (fun c => c == '-'))
            rw [hYc] at hh
            exact head?_dropWhile_false _ _ z hh.symm
          rw [noDD]
          rw [hYc] at hY
          simp [hz, hY]
      · rw [if_neg hx]
        rw [Bool.not_eq_true] at hx
        have hY := ih rest hrest
        cases hYc : dashSub f rest with
        | nil => rfl
        | cons z zs =>
          rw [noDD]
          rw [hYc] at hY
          simp [hx, hY]

theorem noParenPair_sublist : ∀ {l' l : List Char}, l'.Sublist l →
    noParenPair l = true → noParenPair l' = true := by
  intro l' l hs
  induction hs with
  | slnil => intro _; rfl
  | cons y _ ih =>
    intro h
    exact ih (noParenPair_tail y _ h)
  | cons₂ y hs ih =>
    intro h
    rw [noParenPair] at h ⊢
    by_cases hy : (y == '(') = true
    · rw [if_pos hy] at h ⊢
      simp only [Bool.not_eq_true'] at h ⊢
      refine contains_false_of_not_mem _ _ ?_
      intro hm
      have : (')' : Char) ∈ _ := hs.subset hm
      have hc := contains_true_of_mem ')' _ this
      rw [hc] at h
      exact Bool.true_eq_false.mp h
    · rw [if_neg hy] at h ⊢
      exact ih h

theorem parenSub_noParenPair : ∀ fuel l, l.length ≤ fuel →
    noParenPair (parenSub fuel l) = true := by
  intro fuel
  induction fuel with
  | zero =>
    intro l hl
    rw [Nat.le_zero, List.length_eq_zero] at hl
    subst hl
    rfl
  | succ f ih =>
    intro l hl
    cases l with
    | nil => rfl
    | cons x rest =>
      have hrest : rest.length ≤ f := by
        simp only [List.length_cons] at hl
        omega
      simp only [parenSub]
      by_cases hc : ((((x :: rest).dropWhile isPySpace).head? == some '(') &&
          (((((x :: rest).dropWhile isPySpace).drop 1).dropWhile
            (fun y => !(y == ')'))).head? == some ')')) = true
      · rw [if_pos hc]
        have hulen : (((((x :: rest).dropWhile isPySpace).drop 1).dropWhile
            (fun y => !(y == ')'))).drop 1).length ≤ f := by
          have s1 : (((((x :: rest).dropWhile isPySpace).drop 1).dropWhile
              (fun y => !(y == ')'))).drop 1).length ≤
              ((((x :: rest).dropWhile isPySpace).drop 1).dropWhile
                (fun y => !(y == ')'))).length := by
            simp [List.length_drop]
          have s2 : ((((x :: rest).dropWhile isPySpace).drop 1).dropWhile
              (fun y => !(y == ')'))).length ≤
              (((x :: rest).dropWhile isPySpace).drop 1).length :=
            List.Sublist.length_le (List.dropWhile_sublist _)
          have s3 : (((x :: rest).dropWhile isPySpace).drop 1).length ≤
              ((x :: rest).dropWhile isPySpace).length - 1 := by
            simp [List.length_drop]
          have s4 : ((x :: rest).dropWhile isPySpace).length ≤ rest.length + 1 := by
            simpa using List.Sublist.length_le (List.dropWhile_sublist (l := x :: rest) isPySpace)
          omega
        exact ih _ hulen
      · rw [if_neg hc]
        by_cases hx : (x == '(') = true
        · have hxeq : x = '(' := beq_iff_eq.mp hx
          have ht : (x :: rest).dropWhile isPySpace = x :: rest := by
            apply dropWhile_eq_self_of_head isPySpace
            rw [hxeq]
            decide
          have hhd : (((x :: rest).dropWhile isPySpace).head? == some '(') = true := by
            rw [ht, List.head?_cons, hxeq]
            rfl
          have hu : (((((x :: rest).dropWhile isPySpace).drop 1).dropWhile
              (fun y => !(y == ')'))).head? == some ')') = false := by
            cases hcc : ((((x :: rest).dropWhile isPySpace).drop 1).dropWhile
                (fun y => !(y == ')'))).head? == some ')' with
            | false => rfl
            | true =>
              rw [hhd, hcc] at hc
              simp at hc
          have hnr : (')' : Char) ∉ rest := by
            have hd1 : ((x :: rest).dropWhile isPySpace).drop 1 = rest := by
              rw [ht, List.drop_one, List.tail_cons]
            rw [hd1] at hu
            cases hdw : rest.dropWhile (fun y => !(y == ')')) with
            | nil =>
              rw [List.dropWhile_eq_nil_iff] at hdw
              intro hm
              have := hdw ')' hm
              simp at this
            | cons z zs =>
              have hz := head?_dropWhile_false (fun y => !(y == ')')) rest z
                (by rw [hdw]; rfl)
              simp only [Bool.not_eq_false'] at hz
              have hzeq : z = ')' := beq_iff_eq.mp hz
              rw [hdw] at hu
              simp [hzeq] at hu
          rw [noParenPair]
          rw [if_pos hx]
          simp only [Bool.not_eq_true']
          refine contains_false_of_not_mem _ _ ?_
          intro hm
          exact hnr (mem_parenSub ')' f rest hm)
        · rw [noParenPair, if_neg hx]
          exact ih rest hrest

theorem noParenPair_wsSub : ∀ fuel l, noParenPair l = true →
    noParenPair (wsSub fuel l) = true := by
  intro fuel
  induction fuel with
  | zero => intro l h; exact h
  | succ f ih =>
    intro l h
    cases l with
    | nil => rfl
    | cons x rest =>
      rw [wsSub]
      by_cases hx : isPySpace x = true
      · rw [if_pos hx]
        rw [noParenPair, if_neg (by decide)]
        refine ih _ (noParenPair_sublist (List.dropWhile_sublist _) ?_)
        exact noParenPair_tail x rest h
      · rw [if_neg hx]
        rw [noParenPair]
        by_cases hxp : (x == '(') = true
        · rw [if_pos hxp]
          have hnr : (')' : Char) ∉ rest := by
            rw [noParenPair, if_pos hxp] at h
            simp only [Bool.not_eq_true'] at h
            intro hm
            have := contains_true_of_mem ')' rest hm
            rw [this] at h
            exact Bool.true_eq_false.mp h
          simp only [Bool.not_eq_true']
          refine contains_false_of_not_mem _ _ ?_
          intro hm
          rcases mem_wsSub ')' f rest hm with hh | hh
          · exact hnr hh
          · simp at hh
        · rw [if_neg hxp]
          exact ih rest (noParenPair_tail x rest h)

theorem noParenPair_dashSub : ∀ fuel l, noParenPair l = true →
    noParenPair (dashSub fuel l) = true := by
  intro fuel
  induction fuel with
  | zero => intro l h; exact h
  | succ f ih =>
    intro l h
    cases l with
    | nil => rfl
    | cons x rest =>
      rw [dashSub]
      by_cases hx : (x == '-') = true
      · rw [if_pos hx]
        rw [noParenPair, if_neg (by decide)]
        refine ih _ (noParenPair_sublist (List.dropWhile_sublist _) ?_)
        exact noParenPair_tail x rest h
      · rw [if_neg hx]
        rw [noParenPair]
        by_cases hxp : (x == '(') = true
        · rw [if_pos hxp]
          have hnr : (')' : Char) ∉ rest := by
            rw [noParenPair, if_pos hxp] at h
            simp only [Bool.not_eq_true'] at h
            intro hm
            have := contains_true_of_mem ')' rest hm
            rw [this] at h
            exact Bool.true_eq_false.mp h
          simp only [Bool.not_eq_true']
          refine contains_false_of_not_mem _ _ ?_
          intro hm
          rcases mem_dashSub ')' f rest hm with hh | hh
          · exact hnr hh
          · simp at hh
        · rw [if_neg hxp]
          exact ih rest (noParenPair_tail x rest h)

theorem noDD_dropWhile (p : Char → Bool) : ∀ l : List Char, noDD l = true →
    noDD (l.dropWhile p) = true := by
  intro l
  induction l with
  | nil => intro _; rfl
  | cons x rest ih =>
    intro h
    rw [List.dropWhile_cons]
    by_cases hx : p x = true
    · rw [if_pos hx]
      exact ih (noDD_tail x rest h)
    · rw [if_neg hx]
      exact h

theorem noDD_append_left : ∀ a b : List Char, noDD (a ++ b) = true → noDD a = true := by
  intro a b
  induction a with
  | nil => intro _; rfl
  | cons x a' ih =>
    intro h
    cases a' with
    | nil => rfl
    | cons y a'' =>
      simp only [List.cons_append] at h
      rw [noDD] at h ⊢
      simp only [Bool.and_eq_true] at h ⊢
      refine ⟨h.1, ?_⟩
      refine ih ?_
      simpa [List.cons_append] using h.2

theorem dTD_prefix : ∀ l : List Char, ∃ b, l = dropTrailingDashes l ++ b := by
  intro l
  induction l with
  | nil => exact ⟨[], rfl⟩
  | cons x rest ih =>
    simp only [dropTrailingDashes]
    by_cases hx : ((dropTrailingDashes rest).isEmpty && (x == '-')) = true
    · rw [if_pos hx]
      exact ⟨x :: rest, rfl⟩
    · rw [if_neg hx]
      obtain ⟨b, hb⟩ := ih
      refine ⟨b, ?_⟩
      rw [List.cons_append, ← hb]

theorem noDD_dTD (l : List Char) (h : noDD l = true) :
    noDD (dropTrailingDashes l) = true := by
  obtain ⟨b, hb⟩ := dTD_prefix l
  refine noDD_append_left _ b ?_
  rw [← hb]
  exact h

theorem dTD_sublist (l : List Char) : (dropTrailingDashes l).Sublist l := by
  obtain ⟨b, hb⟩ := dTD_prefix l
  conv_rhs => rw [hb]
  exact List.sublist_append_left _ _

theorem plusEnd_sublist (l : List Char) : (plusEnd l).Sublist l := by
  unfold plusEnd
  by_cases hn : (l.reverse.head? == some '\n') = true
  · rw [if_pos hn]
    have h1 : ('\n' :: (l.reverse.drop 1).dropWhile (fun c => c == '+')).Sublist l.reverse := by
      cases hr : l.reverse with
      | nil => rw [hr] at hn; simp at hn
      | cons y ys =>
        rw [hr] at hn
        simp only [List.head?_cons, beq_iff_eq, Option.some.injEq] at hn
        subst hn
        rw [List.drop_one, List.tail_cons]
        exact List.Sublist.cons₂ _ (List.dropWhile_sublist _)
    have h2 := h1.reverse
    rwa [List.reverse_reverse] at h2
  · rw [if_neg hn]
    have h1 : (l.reverse.dropWhile (fun c => c == '+')).Sublist l.reverse :=
      List.dropWhile_sublist _
    have h2 := h1.reverse
    rwa [List.reverse_reverse] at h2

theorem stripDashes_sublist (l : List Char) : (stripDashes l).Sublist l :=
  (dTD_sublist _).trans (List.dropWhile_sublist _)

theorem dTD_head : ∀ l : List Char, dropTrailingDashes l = [] ∨
    (dropTrailingDashes l).head? = l.head? := by
  intro l
  cases l with
  | nil => exact Or.inl rfl
  | cons x rest =>
    simp only [dropTrailingDashes]
    by_cases hx : ((dropTrailingDashes rest).isEmpty && (x == '-')) = true
    · rw [if_pos hx]
      exact Or.inl rfl
    · rw [if_neg hx]
      exact Or.inr rfl

theorem dTD_last : ∀ l : List Char, (dropTrailingDashes l).getLast? ≠ some '-' := by
  intro l
  induction l with
  | nil => simp [dropTrailingDashes]
  | cons x rest ih =>
    simp only [dropTrailingDashes]
    by_cases hx : ((dropTrailingDashes rest).isEmpty && (x == '-')) = true
    · rw [if_pos hx]
      simp
    · rw [if_neg hx]
      cases hr : dropTrailingDashes rest with
      | nil =>
        have hxne : ¬ x = '-' := by
          rw [hr] at hx
          simp only [List.isEmpty_nil, Bool.true_and, Bool.not_eq_true] at hx
          simpa using hx
        rw [List.getLast?_singleton]
        simp [hxne]
      | cons z zs =>
        rw [List.getLast?_cons_cons]
        rw [hr] at ih
        exact ih

theorem stripDashes_head (l : List Char) : (stripDashes l).head? ≠ some '-' := by
  unfold stripDashes
  rcases dTD_head (l.dropWhile (fun c => c == '-')) with h | h
  · rw [h]
    simp
  · rw [h]
    intro hc
    have := head?_dropWhile_false (fun c => c == '-') l '-' hc
    simp at this

theorem stripDashes_last (l : List Char) : (stripDashes l).getLast? ≠ some '-' :=
  dTD_last _

theorem normalize_fixed (d : List Char)
    (Hws : ∀ c ∈ d, isPySpace c = false)
    (Hlow : ∀ c ∈ d, c.toLower = c)
    (Hpp : noParenPair d = true)
    (Hdd : noDD d = true)
    (Hhead : d.head? ≠ some '-')
    (Hlast : d.getLast? ≠ some '-')
    (Hker : hasSub kernelLit d = false)
    (Hplus : d.getLast? ≠ some '+') :
    normalize_client_name ⟨d⟩ = ⟨d⟩ := by
  simp only [normalize_client_name]
  rw [map_toLower_fixed d Hlow]
  rw [kernelSub_id d.length d Hws Hker]
  rw [parenSub_id d.length d Hws Hpp]
  rw [plusEnd_id d Hws Hplus]
  rw [wsSub_id d.length d Hws]
  rw [dashSub_id d.length d Hdd]
  rw [stripDashes_id d Hhead Hlast]

/-! ## Claim C8 -/

/-- Claim C8, counterexample: name normalization is not idempotent.  The
input `"+ "` normalizes to `"+"` — the trailing-plus strip runs before
whitespace is collapsed to a dash and before dashes are stripped, so a `+`
can resurface at the end of the normal form — and normalizing `"+"` again
yields `""`. -/
theorem c8_counterexample :
    normalize_client_name "+ " = "+" ∧
    normalize_client_name (normalize_client_name "+ ") ≠ normalize_client_name "+ " := by
  refine ⟨by decide, by decide⟩

/-- Claim C8, amended: normalization is idempotent on every input whose
normal form does not end in `+` and does not contain `kernel` — the two ways
a later pass can still fire.  (A normal form is already lower-cased,
whitespace-free, free of `(`-before-`)` pairs, and has no doubled or
leading/trailing dashes; these facts are proved, not assumed.) -/
theorem c8_conditional_idempotent (s : String)
    (hker : strContains (normalize_client_name s) "kernel" = false)
    (hplus : (normalize_client_name s).data.getLast? ≠ some '+') :
    normalize_client_name (normalize_client_name s) = normalize_client_name s := by
  have hker' : hasSub kernelLit (normalize_client_name s).data = false := hker
  set n0 : List Char := s.data.map Char.toLower with hn0
  set n1 : List Char := kernelSub n0.length n0 with hn1
  set n2 : List Char := parenSub n1.length n1 with hn2
  set n3 : List Char := plusEnd n2 with hn3
  set n4 : List Char := wsSub n3.length n3 with hn4
  set n5 : List Char := dashSub n4.length n4 with hn5
  have hdata : (normalize_client_name s).data = stripDashes n5 := rfl
  have Hws : ∀ c ∈ (normalize_client_name s).data, isPySpace c = false := by
    intro c hc
    rw [hdata] at hc
    have h5 := mem_stripDashes c n5 hc
    rw [hn5] at h5
    rcases mem_dashSub c n4.length n4 h5 with h4 | h4
    · rw [hn4] at h4
      exact wsSub_noWs n3.length n3 (le_refl _) c h4
    · subst h4
      decide
  have Hlow : ∀ c ∈ (normalize_client_name s).data, c.toLower = c := by
    intro c hc
    rw [hdata] at hc
    have h5 := mem_stripDashes c n5 hc
    rw [hn5] at h5
    rcases mem_dashSub c n4.length n4 h5 with h4 | h4
    swap
    · subst h4
      exact toLower_dash
    rw [hn4] at h4
    rcases mem_wsSub c n3.length n3 h4 with h3 | h3
    swap
    · subst h3
      exact toLower_dash
    rw [hn3] at h3
    have h2 := mem_plusEnd c n2 h3
    rw [hn2] at h2
    have h1 := mem_parenSub c n1.length n1 h2
    rw [hn1] at h1
    rcases mem_kernelSub c n0.length n0 h1 with h0 | h0
    swap
    · subst h0
      exact toLower_dash
    rw [hn0] at h0
    obtain ⟨a, _, rfl⟩ := List.mem_map.mp h0
    exact toLower_idem a
  have Hpp : noParenPair (normalize_client_name s).data = true := by
    rw [hdata]
    refine noParenPair_sublist (stripDashes_sublist n5) ?_
    rw [hn5]
    refine noParenPair_dashSub n4.length n4 ?_
    rw [hn4]
    refine noParenPair_wsSub n3.length n3 ?_
    rw [hn3]
    refine noParenPair_sublist (plusEnd_sublist n2) ?_
    rw [hn2]
    exact parenSub_noParenPair n1.length n1 (le_refl _)
  have Hdd : noDD (normalize_client_name s).data = true := by
    rw [hdata]
    unfold stripDashes
    refine noDD_dTD _ ?_
    refine noDD_dropWhile _ _ ?_
    rw [hn5]
    exact dashSub_noDD n4.length n4 (le_refl _)
  have Hhead : (normalize_client_name s).data.head? ≠ some '-' := by
    rw [hdata]
    exact stripDashes_head n5
  have Hlast : (normalize_client_name s).data.getLast? ≠ some '-' := by
    rw [hdata]
    exact stripDashes_last n5
  have hfixed := normalize_fixed (normalize_client_name s).data
    Hws Hlow Hpp Hdd Hhead Hlast hker' hplus
  calc normalize_client_name (normalize_client_name s)
      = normalize_client_name ⟨(normalize_client_name s).data⟩ := by
        rw [string_mk_data]
    _ = ⟨(normalize_client_name s).data⟩ := hfixed
    _ = normalize_client_name s := string_mk_data _

/-- Witness for `c8_conditional_idempotent`: the client report name from the
script's own docstring.  Its normal form `linux-5.15` neither ends in `+`
nor contains `kernel`, and normalization is idempotent on it. -/
theorem c8_conditional_idempotent_witness :
    normalize_client_name "Linux Kernel 5.15+" = "linux-5.15" ∧
    normalize_client_name (normalize_client_name "Linux Kernel 5.15+") =
      normalize_client_name "Linux Kernel 5.15+" :=
  ⟨by decide, c8_conditional_idempotent "Linux Kernel 5.15+" (by decide) (by decide)⟩
